import Mathlib

/-!
Verification development for the Bleeper word-redaction audio tool
(source file src/bleep.py).

The Python source is shallowly embedded as follows.

* Word timestamps (Python floats, seconds) are modelled as rationals.
  Python `int(x)` is truncation toward zero, modelled by `pyInt`.
* Strings are Lean strings; `str.lower` and `str.isalpha` are modelled
  at the basic-latin level by `Char.toLower` and `Char.isAlpha`, which
  matches the reference behavior on ASCII input (the spec declares
  multi-language normalization beyond case-folding a non-goal).
* A pydub `AudioSegment` is a list of rationals, one entry per
  millisecond of audio, each entry holding the mean signal power of
  that millisecond in the linear power domain.  Loudness arithmetic,
  which pydub performs in dB, is a strictly monotone bijective image
  of the linear power domain (`x dB = 10 * log10 x`), so gains add in
  dB exactly when powers multiply in the model, and a dBFS value is
  finite exactly when the mean power is nonzero.  Slicing with
  millisecond indices follows Python slice semantics (`pySlice`).
* The pydub fade ramps are modelled as strictly positive per-chunk
  attenuation factors; the development relies only on their
  positivity and on fades preserving duration.
-/

/-- Python `int(x)` for a rational `x`: truncation toward zero. -/
def pyInt (x : ℚ) : ℤ := if 0 ≤ x then ⌊x⌋ else ⌈x⌉

/-- Extra milliseconds muted on each side of a matched word
(src/bleep.py line 27). -/
def PADDING_MS : ℤ := 80

/-- Tone frequency used for bleep mode (src/bleep.py line 28).  The
frequency does not influence duration or loudness in the model. -/
def BLEEP_FREQ_HZ : ℤ := 1000

/-- Model of Python `str.lower` (basic-latin range): lowercase every
character. -/
def pyLowerStr (s : String) : String := ⟨s.data.map Char.toLower⟩

/-- Model of Python `str.strip`: remove leading and trailing
whitespace. -/
def pyStrip (s : String) : String :=
  ⟨((s.data.dropWhile Char.isWhitespace).reverse.dropWhile
      Char.isWhitespace).reverse⟩

/-- Model of Python `s.startswith(t)`. -/
def pyStartsWith (s t : String) : Bool := t.data.isPrefixOf s.data

/-- Embedding of `clean_word` (src/bleep.py lines 55-57): lowercase the
word, then keep only the alphabetic characters. -/
def clean_word (w : String) : String :=
  ⟨(w.data.map Char.toLower).filter Char.isAlpha⟩

/-- Embedding of `load_wordlist` (src/bleep.py lines 32-44), for the
case where the wordlist file exists, with the file given as its list of
lines.  Each line is stripped and lowercased; empty results and lines
starting with the comment marker are skipped; the rest are added to the
set.  The Python `set[str]` is modelled as a duplicate-free list, with
`set.add` as membership-guarded cons; only membership, emptiness and
run-to-run equality of the result are used.  The missing-file branch of
the source performs file creation and returns the empty set; file input
and output is outside the embedding. -/
def load_wordlist (lines : List String) : List String :=
  lines.foldl (fun words line =>
    let word := pyLowerStr (pyStrip line)
    if word ≠ ("") ∧ pyStartsWith word ("#") = false then
      if word ∈ words then words else word :: words
    else words) []

/-- One transcribed word token, as consumed from the transcription
result (`word_info` in src/bleep.py lines 112-117): the raw text, the
start time and the end time in seconds.  The field `stop` models the
dictionary entry named `end` in the source. -/
structure WordInfo where
  word : String
  start : ℚ
  stop : ℚ
deriving DecidableEq

/-- Embedding of the match loop of src/bleep.py lines 110-118: walk all
words of all segments in order and, for each word whose cleaned form is
in the banned set, emit the padded interval
`(max 0 (int(start*1000) - PADDING_MS), int(end*1000) + PADDING_MS)`. -/
def hitsOf (segments : List (List WordInfo)) (banned : List String) :
    List (ℤ × ℤ) :=
  segments.flatten.filterMap fun w =>
    if clean_word w.word ∈ banned then
      some (max 0 (pyInt (w.start * 1000) - PADDING_MS),
            pyInt (w.stop * 1000) + PADDING_MS)
    else none

section CharFacts

/-- Converting a valid codepoint to a character and back is the
identity. -/
theorem toNat_ofNat_of_valid (n : ℕ) (h : n.isValidChar) :
    (Char.ofNat n).toNat = n := by
  rw [Char.ofNat, dif_pos h]
  rfl

/-- The uppercase test in terms of the codepoint. -/
theorem isUpper_iff_toNat (c : Char) :
    c.isUpper = true ↔ 65 ≤ c.toNat ∧ c.toNat ≤ 90 := by
  simp only [Char.isUpper, Bool.and_eq_true, decide_eq_true_eq,
    UInt32.le_def, BitVec.le_def]
  rfl

/-- Lowercasing never produces an uppercase basic-latin letter. -/
theorem isUpper_toLower (c : Char) : (Char.toLower c).isUpper = false := by
  rw [Char.toLower]
  by_cases h : c.toNat ≥ 65 ∧ c.toNat ≤ 90
  · rw [if_pos h]
    have hvalid : (c.toNat + 32).isValidChar := by
      left
      omega
    apply Bool.eq_false_iff.mpr
    intro hup
    have := (isUpper_iff_toNat _).mp hup
    rw [toNat_ofNat_of_valid _ hvalid] at this
    omega
  · rw [if_neg h]
    apply Bool.eq_false_iff.mpr
    intro hup
    exact h ((isUpper_iff_toNat _).mp hup)

/-- Lowercasing fixes characters that are not uppercase letters. -/
theorem toLower_of_not_isUpper {c : Char} (h : c.isUpper = false) :
    Char.toLower c = c := by
  rw [Char.toLower, if_neg]
  intro hc
  rw [(isUpper_iff_toNat c).mpr hc] at h
  cases h

/-- Lowercasing is idempotent. -/
theorem toLower_toLower (c : Char) :
    Char.toLower (Char.toLower c) = Char.toLower c :=
  toLower_of_not_isUpper (isUpper_toLower c)

end CharFacts

/-- A decoded audio buffer in the linear power domain: one rational per
millisecond of audio, holding the mean signal power of that
millisecond. -/
abbrev AudioSeg := List ℚ

/-- Buffer duration in milliseconds; models `len(audio)` of pydub. -/
def lengthMs (audio : AudioSeg) : ℤ := audio.length

/-- Resolution of one Python slice endpoint: negative indices count from
the end, and the result is clamped into `[0, n]`. -/
def pyIdx (n : ℕ) (i : ℤ) : ℕ :=
  if i < 0 then ((n : ℤ) + i).toNat else min i.toNat n

/-- Python slice `audio[lo:hi]` with millisecond indices, as pydub
performs it on audio segments. -/
def pySlice (audio : AudioSeg) (lo hi : ℤ) : AudioSeg :=
  (audio.take (pyIdx audio.length hi)).drop (pyIdx audio.length lo)

/-- Python slice `audio[lo:]`. -/
def pySliceFrom (audio : AudioSeg) (lo : ℤ) : AudioSeg :=
  audio.drop (pyIdx audio.length lo)

/-- Model of `AudioSegment.silent(duration)`: a zero-power clip of the
given duration.  A nonpositive duration yields the empty clip, matching
pydub, whose frame count `int(frame_rate * duration / 1000)` produces
empty sample data when it is not positive. -/
def silentSeg (duration : ℤ) : AudioSeg := List.replicate duration.toNat 0

/-- Model of `AudioSegment.dBFS`, transported to the linear power
domain: the mean power of the clip.  The dBFS value of the source is
finite exactly when this mean is nonzero; the empty clip has zero mean
here and `-infinity` dBFS there. -/
def powerOf (seg : AudioSeg) : ℚ := seg.sum / seg.length

/-- Model of `AudioSegment.apply_gain(gain)`: adding `gain` dB scales
every sample, which multiplies each per-millisecond power by the fixed
ratio corresponding to `gain`. -/
def apply_gain (seg : AudioSeg) (ratio : ℚ) : AudioSeg :=
  seg.map (· * ratio)

/-- Model of `AudioSegment.fade_in(k)`: the first `k` milliseconds are
attenuated by a strictly positive ramp factor.  Only positivity and
duration preservation of the ramp are relied upon. -/
def fade_in (k : ℤ) (seg : AudioSeg) : AudioSeg :=
  List.zipWith
    (fun (i : ℕ) (x : ℚ) =>
      if (i : ℤ) < k then x * ((i + 1 : ℚ) / ((k : ℚ) + 1)) else x)
    (List.range seg.length) seg

/-- Model of `AudioSegment.fade_out(k)`: the last `k` milliseconds are
attenuated by a strictly positive ramp factor. -/
def fade_out (k : ℤ) (seg : AudioSeg) : AudioSeg :=
  List.zipWith
    (fun (i : ℕ) (x : ℚ) =>
      if (seg.length : ℤ) - k ≤ (i : ℤ) then
        x * (((seg.length : ℚ) - (i : ℚ)) / ((k : ℚ) + 1))
      else x)
    (List.range seg.length) seg

/-- Embedding of `make_bleep` (src/bleep.py lines 47-52): a sine tone of
the requested duration (mean power one half at natural level in the
model), faded in and out over `min 30 (duration // 4)` milliseconds.
The underlying pydub tone generator slices `duration * sample_rate /
1000` samples from the generator and rejects a negative count, so a
negative duration is an error, modelled as `none`. -/
def make_bleep (duration_ms : ℤ) : Option AudioSeg :=
  if duration_ms < 0 then none
  else
    let tone := List.replicate duration_ms.toNat ((1 : ℚ) / 2)
    let fade := min 30 (duration_ms / 4)
    some (fade_out fade (fade_in fade tone))

/-- The two replacement modes of src/bleep.py. -/
inductive Mode where
  | bleep
  | silence
deriving DecidableEq

/-- The replacement clip built for one hit (src/bleep.py lines
135-142).  In silence mode it is a silent clip of the interval
duration.  In bleep mode it is `make_bleep duration`; when the sliced
source region `audio[start_ms:end_ms]` has finite loudness (nonzero
mean power in the model), the tone gain is adjusted by the dB
difference `segment_vol - replacement.dBFS`, which in the linear power
domain multiplies by `segment_vol / powerOf replacement`. -/
def replacementFor :
    Mode → AudioSeg → ℤ → ℤ → ℤ → Option AudioSeg
  | .silence, _, _, _, duration => some (silentSeg duration)
  | .bleep, audio, start_ms, end_ms, duration =>
      (make_bleep duration).map fun tone =>
        let segment_vol := powerOf (pySlice audio start_ms end_ms)
        if segment_vol ≠ 0 then
          apply_gain tone (segment_vol / powerOf tone)
        else tone

/-- One iteration of the edit loop of src/bleep.py lines 131-144: clamp
the interval end to the buffer length, build the replacement clip, and
splice `audio[:start_ms] + replacement + audio[end_ms:]`. -/
def stepEdit (mode : Mode) (audio : AudioSeg) (hit : ℤ × ℤ) :
    Option AudioSeg :=
  let start_ms := hit.1
  let end_ms := min hit.2 (lengthMs audio)
  let duration := end_ms - start_ms
  (replacementFor mode audio start_ms end_ms duration).map fun replacement =>
    pySlice audio 0 start_ms ++ replacement ++ pySliceFrom audio end_ms

/-- The whole edit loop of src/bleep.py lines 131-144 over an already
ordered plan; `none` models an uncaught synthesis error aborting the
run. -/
def applyPlan (mode : Mode) : AudioSeg → List (ℤ × ℤ) → Option AudioSeg
  | audio, [] => some audio
  | audio, hit :: rest =>
      match stepEdit mode audio hit with
      | some edited => applyPlan mode edited rest
      | none => none

/-- Embedding of `sorted(hits, reverse=True)` (src/bleep.py line 131):
the hits in descending lexicographic order. -/
def sortDesc (hits : List (ℤ × ℤ)) : List (ℤ × ℤ) :=
  hits.mergeSort fun p q => decide (q.1 < p.1 ∨ (q.1 = p.1 ∧ q.2 ≤ p.2))

/-- The successive values of `segment_vol` (src/bleep.py line 140)
measured while the bleep-mode edit loop runs: each completed iteration
measures the loudness of `audio[start_ms:end_ms]` on the buffer as it
stands at that iteration. -/
def refsUsed (audio : AudioSeg) : List (ℤ × ℤ) → List ℚ
  | [] => []
  | hit :: rest =>
      match stepEdit .bleep audio hit with
      | some edited =>
          powerOf (pySlice audio hit.1 (min hit.2 (lengthMs audio))) ::
            refsUsed edited rest
      | none => []

/-- The successive `duration` values (src/bleep.py line 133) handed to
the synthesizer (`AudioSegment.silent` on line 136 or `make_bleep` on
line 138) while the edit loop runs. -/
def synthDurations (mode : Mode) (audio : AudioSeg) :
    List (ℤ × ℤ) → List ℤ
  | [] => []
  | hit :: rest =>
      (min hit.2 (lengthMs audio) - hit.1) ::
        match stepEdit mode audio hit with
        | some edited => synthDurations mode edited rest
        | none => []

/-- Outcome of one run of `main` (src/bleep.py lines 62-149), after the
input file exists and transcription produced the given segments. -/
inductive RunResult where
  /-- Lines 96-98: the banned set is empty; the run prints a warning and
  terminates with `sys.exit(0)`; no output file is produced and no edit
  is performed. -/
  | emptyWordlist
  /-- Lines 120-122: no banned word was found; the run terminates with
  `sys.exit(0)`; no output file is produced and no edit is performed. -/
  | noMatches
  /-- Lines 146-149: the edited buffer is exported to the output file. -/
  | exported (audio : AudioSeg)
  /-- An uncaught exception escaped the edit loop and aborted the run. -/
  | synthesisError
deriving DecidableEq

/-- Embedding of the decision structure of `main` (src/bleep.py lines
91-149): stop successfully on an empty banned set, stop successfully
when no hits are found, otherwise apply the descending-sorted plan and
export the result. -/
def runBleeper (banned : List String) (segments : List (List WordInfo))
    (audio : AudioSeg) (mode : Mode) : RunResult :=
  if banned = [] then .emptyWordlist
  else
    let hits := hitsOf segments banned
    if hits = [] then .noMatches
    else
      match applyPlan mode audio (sortDesc hits) with
      | some edited => .exported edited
      | none => .synthesisError

section StringClaims

/-- Truncation agrees with flooring on nonnegative inputs. -/
theorem pyInt_eq_floor {x : ℚ} (h : 0 ≤ x) : pyInt x = ⌊x⌋ := if_pos h

/-- Mapping lowercasing over a string twice is the same as doing it
once. -/
theorem pyLowerStr_idem (s : String) :
    pyLowerStr (pyLowerStr s) = pyLowerStr s := by
  unfold pyLowerStr
  apply congrArg
  rw [List.map_map]
  exact List.map_congr_left fun c _ => toLower_toLower c

/-- Claim C6: the word normalizer lowercases and keeps exactly the
alphabetic characters; it is a pure total Lean function, it sends
`Hell!!` and `hell` to `hell` and `123` to the empty string, and every
character of any output is an alphabetic non-uppercase character. -/
theorem clean_word_correct :
    clean_word ("Hell!!") = ("hell") ∧ clean_word ("hell") = ("hell") ∧
    clean_word ("123") = ("") ∧
    ∀ (w : String) (c : Char), c ∈ (clean_word w).data →
      c.isAlpha = true ∧ c.isUpper = false := by
  refine ⟨by decide, by decide, by decide, fun w c hc => ?_⟩
  unfold clean_word at hc
  have hc2 := List.mem_filter.mp hc
  obtain ⟨d, _, hd⟩ := List.mem_map.mp hc2.1
  exact ⟨hc2.2, hd ▸ isUpper_toLower d⟩

/-- Witness for C6 at a concrete output character. -/
theorem clean_word_correct_witness :
    Char.isAlpha ('h') = true ∧ Char.isUpper ('h') = false :=
  clean_word_correct.2.2.2 ("Hell!!") 'h' (by decide)

/-- Claim C10: the word normalizer is idempotent. -/
theorem clean_word_idempotent (w : String) :
    clean_word (clean_word w) = clean_word w := by
  unfold clean_word
  apply congrArg
  have hfix : ∀ c ∈ (w.data.map Char.toLower).filter Char.isAlpha,
      Char.toLower c = c := by
    intro c hc
    obtain ⟨d, _, hd⟩ := List.mem_map.mp (List.mem_filter.mp hc).1
    exact toLower_of_not_isUpper (hd ▸ isUpper_toLower d)
  rw [List.map_congr_left hfix, List.map_id',
    List.filter_eq_self.mpr fun c hc => (List.mem_filter.mp hc).2]

/-- Membership in one step of the wordlist fold. -/
theorem mem_load_wordlist_step (words : List String) (line w : String) :
    (w ∈ (fun words line =>
        let word := pyLowerStr (pyStrip line)
        if word ≠ ("") ∧ pyStartsWith word ("#") = false then
          if word ∈ words then words else word :: words
        else words) words line) ↔
      ((pyLowerStr (pyStrip line) ≠ ("") ∧
        pyStartsWith (pyLowerStr (pyStrip line)) ("#") = false ∧
        w = pyLowerStr (pyStrip line)) ∨ w ∈ words) := by
  simp only
  by_cases h : pyLowerStr (pyStrip line) ≠ ("") ∧
      pyStartsWith (pyLowerStr (pyStrip line)) ("#") = false
  · rw [if_pos h]
    by_cases hmem : pyLowerStr (pyStrip line) ∈ words
    · rw [if_pos hmem]
      constructor
      · exact Or.inr
      · rintro (⟨_, _, rfl⟩ | hw)
        · exact hmem
        · exact hw
    · rw [if_neg hmem, List.mem_cons]
      constructor
      · rintro (rfl | hw)
        · exact Or.inl ⟨h.1, h.2, rfl⟩
        · exact Or.inr hw
      · rintro (⟨_, _, rfl⟩ | hw)
        · exact Or.inl rfl
        · exact Or.inr hw
  · rw [if_neg h]
    constructor
    · exact Or.inr
    · rintro (⟨h1, h2, rfl⟩ | hw)
      · exact absurd ⟨h1, h2⟩ h
      · exact hw

/-- Membership in the folded wordlist accumulator. -/
theorem mem_load_wordlist_aux (lines : List String) (init : List String)
    (w : String) :
    w ∈ lines.foldl (fun words line =>
        let word := pyLowerStr (pyStrip line)
        if word ≠ ("") ∧ pyStartsWith word ("#") = false then
          if word ∈ words then words else word :: words
        else words) init ↔
      w ∈ init ∨ ∃ line ∈ lines,
        pyLowerStr (pyStrip line) ≠ ("") ∧
        pyStartsWith (pyLowerStr (pyStrip line)) ("#") = false ∧
        w = pyLowerStr (pyStrip line) := by
  induction lines generalizing init with
  | nil => simp
  | cons line rest ih =>
      rw [List.foldl_cons, ih]
      rw [mem_load_wordlist_step init line w]
      simp only [List.mem_cons]
      constructor
      · rintro ((hgood | hi) | ⟨l, hl, hgood⟩)
        · exact Or.inr ⟨line, Or.inl rfl, hgood⟩
        · exact Or.inl hi
        · exact Or.inr ⟨l, Or.inr hl, hgood⟩
      · rintro (hi | ⟨l, (rfl | hl), hgood⟩)
        · exact Or.inl (Or.inr hi)
        · exact Or.inl (Or.inl hgood)
        · exact Or.inr ⟨l, hl, hgood⟩

/-- Amendment of claim C7: the loader returns lowercase, non-blank,
non-comment entries (blank lines and comment lines contribute nothing),
but entries are not punctuation-free: the loader performs no
punctuation stripping, so a wordlist line may carry punctuation into
the banned set. -/
theorem load_wordlist_lowercase_nonblank :
    (∀ (lines : List String) (w : String), w ∈ load_wordlist lines →
        w ≠ ("") ∧ pyStartsWith w ("#") = false ∧ pyLowerStr w = w) ∧
    (∀ (pre post : List String) (line : String),
        pyLowerStr (pyStrip line) = ("") ∨
          pyStartsWith (pyLowerStr (pyStrip line)) ("#") = true →
        load_wordlist (pre ++ line :: post) = load_wordlist (pre ++ post)) := by
  constructor
  · intro lines w hw
    rw [load_wordlist, mem_load_wordlist_aux] at hw
    rcases hw with hw | ⟨line, _, h1, h2, rfl⟩
    · exact absurd hw (List.not_mem_nil w)
    · exact ⟨h1, h2, pyLowerStr_idem _⟩
  · intro pre post line hbad
    rw [load_wordlist, load_wordlist, List.foldl_append, List.foldl_append,
      List.foldl_cons, if_neg]
    intro ⟨h1, h2⟩
    rcases hbad with hbad | hbad
    · exact h1 hbad
    · rw [hbad] at h2
      cases h2

/-- Witness for the amended C7 on a concrete wordlist. -/
theorem load_wordlist_lowercase_nonblank_witness :
    (("hello") ≠ ("") ∧ pyStartsWith ("hello") ("#") = false ∧
      pyLowerStr ("hello") = ("hello")) ∧
    load_wordlist [("Hello"), (""), ("# note")] =
      load_wordlist [("Hello")] := by
  constructor
  · exact load_wordlist_lowercase_nonblank.1 [("Hello")] ("hello") (by decide)
  · have h2 := load_wordlist_lowercase_nonblank.2 [("Hello"), ("")] []
      ("# note") (Or.inr (by decide))
    have h1 := load_wordlist_lowercase_nonblank.2 [("Hello")] [] ("")
      (Or.inl (by decide))
    simpa using h2.trans h1

/-- Counterexample to claim C7 as stated: a wordlist line with
punctuation is returned verbatim (lowercased only), so the loaded set is
not punctuation-free. -/
theorem load_wordlist_keeps_punctuation :
    ("hell!") ∈ load_wordlist [("hell!")] ∧ ('!') ∈ ("hell!").data ∧
    Char.isAlpha ('!') = false := by
  decide

/-- Amendment of claim C2: the interval emitted for a matched token is
`startMs = max 0 (floor(startTime * 1000) - 80)` and
`endMs = floor(endTime * 1000) + 80`; the end is truncated by Python
`int`, which floors nonnegative values, not rounded up. -/
theorem hits_interval_truncated (segments : List (List WordInfo))
    (banned : List String) (w : WordInfo) (hw : w ∈ segments.flatten)
    (hmem : clean_word w.word ∈ banned) (hs : 0 ≤ w.start)
    (he : 0 ≤ w.stop) :
    (max 0 (⌊w.start * 1000⌋ - PADDING_MS), ⌊w.stop * 1000⌋ + PADDING_MS) ∈
      hitsOf segments banned := by
  unfold hitsOf
  apply List.mem_filterMap.mpr
  refine ⟨w, hw, ?_⟩
  rw [if_pos hmem, pyInt_eq_floor (mul_nonneg hs (by norm_num)),
    pyInt_eq_floor (mul_nonneg he (by norm_num))]

/-- Witness for the amended C2 on a concrete transcript. -/
theorem hits_interval_truncated_witness :
    (max 0 (⌊(1 / 2 : ℚ) * 1000⌋ - PADDING_MS),
      ⌊(2001 / 2000 : ℚ) * 1000⌋ + PADDING_MS) ∈
      hitsOf [[⟨("hell"), 1 / 2, 2001 / 2000⟩]] [("hell")] :=
  hits_interval_truncated [[⟨("hell"), 1 / 2, 2001 / 2000⟩]] [("hell")]
    ⟨("hell"), 1 / 2, 2001 / 2000⟩ (by simp) (by decide) (by norm_num)
    (by norm_num)

/-- Counterexample to claim C2 as stated: for a token ending at
`2001/2000` seconds the matcher emits `endMs = 1080` (truncation plus
padding), while the ceiling formula of the claim gives `1081`. -/
theorem hits_endMs_not_ceiling :
    hitsOf [[⟨("hell"), 1 / 2, 2001 / 2000⟩]] [("hell")] = [(420, 1080)] ∧
    ⌈(2001 / 2000 : ℚ) * 1000⌉ + PADDING_MS ≠ 1080 := by
  have hcw : clean_word ("hell") = ("hell") := by decide
  constructor
  · norm_num [hitsOf, pyInt, PADDING_MS, hcw, List.filterMap_cons]
  · have hceil : (⌈(2001 / 2000 : ℚ) * 1000⌉ : ℤ) = 1001 := by
      rw [show ((2001 : ℚ) / 2000) * 1000 = 1 / 2 + ((1000 : ℤ) : ℚ) by
          push_cast
          norm_num,
        Int.ceil_add_int,
        show (⌈(1 / 2 : ℚ)⌉ : ℤ) = 1 from by
          rw [Int.ceil_eq_iff]
          norm_num]
      decide
    rw [hceil]
    decide

end StringClaims

section SpliceFacts

/-- A resolved slice endpoint never exceeds the list length. -/
theorem pyIdx_le (n : ℕ) (i : ℤ) : pyIdx n i ≤ n := by
  unfold pyIdx
  split <;> omega

/-- Length of a `[lo:]` slice. -/
theorem length_pySliceFrom (a : AudioSeg) (lo : ℤ) :
    (pySliceFrom a lo).length = a.length - pyIdx a.length lo := by
  simp [pySliceFrom]

/-- Length of an initial slice. -/
theorem length_pySlice_zero (a : AudioSeg) (s : ℤ) :
    (pySlice a 0 s).length = pyIdx a.length s := by
  have h0 : pyIdx a.length 0 = 0 := by simp [pyIdx]
  have := pyIdx_le a.length s
  simp [pySlice, h0]
  omega

/-- Length of the spliced buffer `audio[:s] + repl + audio[min e n:]`
when the replacement length is the clamped interval width: the total
duration is unchanged. -/
theorem splice_length (a repl : AudioSeg) (s e : ℤ) (hs : 0 ≤ s)
    (hse : s ≤ e)
    (hrepl : repl.length = (min e (lengthMs a) - s).toNat) :
    (pySlice a 0 s ++ repl ++
      pySliceFrom a (min e (lengthMs a))).length = a.length := by
  have h1 := length_pySlice_zero a s
  have h2 := length_pySliceFrom a (min e (lengthMs a))
  have h3 : pyIdx a.length s = min s.toNat a.length := by
    rw [pyIdx, if_neg (by omega)]
  have h4 : pyIdx a.length (min e (lengthMs a)) =
      (min e (lengthMs a)).toNat := by
    simp only [lengthMs]
    rw [pyIdx, if_neg (by omega)]
    omega
  simp only [List.length_append, h1, h2, h3, h4, hrepl, lengthMs] at *
  omega

/-- Entry-wise description of the spliced buffer: inside the clamped
interval the entries come from the replacement, outside they are the
original entries. -/
theorem splice_getElem (a repl : AudioSeg) (s e : ℤ) (hs : 0 ≤ s)
    (hse : s ≤ e)
    (hrepl : repl.length = (min e (lengthMs a) - s).toNat) (i : ℕ) :
    (pySlice a 0 s ++ repl ++
        pySliceFrom a (min e (lengthMs a)))[i]? =
      if s ≤ (i : ℤ) ∧ (i : ℤ) < min e (lengthMs a) then
        repl[i - s.toNat]?
      else a[i]? := by
  have hP : (pySlice a 0 s).length = pyIdx a.length s :=
    length_pySlice_zero a s
  have h3 : pyIdx a.length s = min s.toNat a.length := by
    rw [pyIdx, if_neg (by omega)]
  have h4 : pyIdx a.length (min e (lengthMs a)) =
      (min e (lengthMs a)).toNat := by
    simp only [lengthMs]
    rw [pyIdx, if_neg (by omega)]
    omega
  have h0 : pyIdx a.length 0 = 0 := by simp [pyIdx]
  rcases Nat.lt_or_ge i (pySlice a 0 s).length with hi | hi
  · rw [List.getElem?_append_left (by
      simp only [List.length_append]
      omega)]
    rw [List.getElem?_append_left hi]
    have : (pySlice a 0 s)[i]? = a[i]? := by
      rw [pySlice, h0, List.drop_zero, List.getElem?_take_of_lt]
      rw [hP] at hi
      omega
    rw [this, if_neg]
    rw [hP, h3] at hi
    intro hcov
    omega
  · rcases Nat.lt_or_ge i ((pySlice a 0 s).length + repl.length) with
      hi2 | hi2
    · rw [List.getElem?_append_left (by
        simp only [List.length_append]
        omega)]
      rw [List.getElem?_append_right hi]
      rw [hP, h3] at hi hi2 ⊢
      rw [if_pos (by simp only [lengthMs] at *; omega)]
      congr 1
      simp only [lengthMs] at *
      omega
    · rw [List.getElem?_append_right (by
        simp only [List.length_append]
        omega)]
      rw [pySliceFrom, List.getElem?_drop, h4]
      simp only [List.length_append, hP, h3] at hi2 ⊢
      rw [if_neg (by simp only [lengthMs] at *; omega)]
      congr 1
      simp only [lengthMs] at *
      omega

end SpliceFacts

section StepFacts

/-- Fading in preserves duration. -/
theorem length_fade_in (k : ℤ) (seg : AudioSeg) :
    (fade_in k seg).length = seg.length := by
  rw [fade_in, List.length_zipWith, List.length_range, Nat.min_self]

/-- Fading out preserves duration. -/
theorem length_fade_out (k : ℤ) (seg : AudioSeg) :
    (fade_out k seg).length = seg.length := by
  rw [fade_out, List.length_zipWith, List.length_range, Nat.min_self]

/-- Gain application preserves duration. -/
theorem length_apply_gain (seg : AudioSeg) (r : ℚ) :
    (apply_gain seg r).length = seg.length := by
  simp [apply_gain]

/-- A successfully generated bleep tone has nonnegative requested
duration and exactly that duration. -/
theorem make_bleep_length {d : ℤ} {tone : AudioSeg}
    (h : make_bleep d = some tone) :
    0 ≤ d ∧ tone.length = d.toNat := by
  rw [make_bleep] at h
  split at h
  · cases h
  · refine ⟨by omega, ?_⟩
    simp only [Option.some.injEq] at h
    rw [← h, length_fade_out, length_fade_in, List.length_replicate]

/-- Any successfully built replacement clip has exactly the requested
duration (clamped to zero from below, as the silent clip of negative
duration is empty). -/
theorem replacementFor_length {mode : Mode} {a : AudioSeg}
    {s e d : ℤ} {repl : AudioSeg}
    (h : replacementFor mode a s e d = some repl) :
    repl.length = d.toNat := by
  cases mode with
  | silence =>
      simp only [replacementFor, Option.some.injEq] at h
      rw [← h, silentSeg, List.length_replicate]
  | bleep =>
      simp only [replacementFor, Option.map_eq_some'] at h
      obtain ⟨tone, htone, h⟩ := h
      have hlen := (make_bleep_length htone).2
      rw [← h]
      split
      · rw [length_apply_gain, hlen]
      · exact hlen

/-- One successful edit step keeps the buffer duration unchanged, for
intervals with nonnegative start and nonnegative width. -/
theorem stepEdit_length {mode : Mode} {a out : AudioSeg} {s e : ℤ}
    (hs : 0 ≤ s) (hse : s ≤ e)
    (h : stepEdit mode a (s, e) = some out) :
    out.length = a.length := by
  simp only [stepEdit, Option.map_eq_some'] at h
  obtain ⟨repl, hrepl, h⟩ := h
  rw [← h]
  exact splice_length a repl s e hs hse (replacementFor_length hrepl)

/-- Claim C1: applying any edit plan made of intervals with nonnegative
start not after their end, in either mode, leaves the total duration of
the buffer unchanged whenever the loop completes, including overlapping
intervals and intervals clamped at the buffer end. -/
theorem applyPlan_duration_invariant (mode : Mode)
    (audio : AudioSeg) (plan : List (ℤ × ℤ)) (out : AudioSeg)
    (hplan : ∀ p ∈ plan, 0 ≤ p.1 ∧ p.1 ≤ p.2)
    (happly : applyPlan mode audio plan = some out) :
    lengthMs out = lengthMs audio := by
  induction plan generalizing audio with
  | nil =>
      simp only [applyPlan, Option.some.injEq] at happly
      rw [happly]
  | cons hit rest ih =>
      rw [applyPlan] at happly
      cases hstep : stepEdit mode audio hit with
      | none => rw [hstep] at happly; cases happly
      | some edited =>
          rw [hstep] at happly
          have hhit := hplan hit (List.mem_cons_self hit rest)
          have h1 : edited.length = audio.length := by
            obtain ⟨s, e⟩ := hit
            exact stepEdit_length hhit.1 hhit.2 hstep
          have h2 := ih edited
            (fun p hp => hplan p (List.mem_cons_of_mem hit hp)) happly
          simp only [lengthMs] at *
          omega

/-- Witness for C1 on a concrete buffer and plan. -/
theorem applyPlan_duration_invariant_witness :
    applyPlan .silence [(2 : ℚ), 2, 2, 2] [(1, 3)] = some [2, 0, 0, 2] ∧
    lengthMs [(2 : ℚ), 0, 0, 2] = lengthMs [(2 : ℚ), 2, 2, 2] := by
  have h : applyPlan .silence [(2 : ℚ), 2, 2, 2] [(1, 3)] =
      some [2, 0, 0, 2] := by decide
  exact ⟨h, applyPlan_duration_invariant .silence [(2 : ℚ), 2, 2, 2]
    [(1, 3)] [2, 0, 0, 2] (by decide) h⟩

end StepFacts

section SilenceFacts

/-- A silence-mode edit step always succeeds. -/
theorem stepEdit_silence_eq (a : AudioSeg) (s e : ℤ) :
    stepEdit .silence a (s, e) =
      some (pySlice a 0 s ++ silentSeg (min e (lengthMs a) - s) ++
        pySliceFrom a (min e (lengthMs a))) := rfl

/-- Entry-wise description of one silence-mode edit: entries inside the
clamped interval become zero, all others are untouched. -/
theorem stepEdit_silence_getElem {a out : AudioSeg} {s e : ℤ}
    (hs : 0 ≤ s) (hse : s ≤ e)
    (h : stepEdit .silence a (s, e) = some out) (i : ℕ) :
    out[i]? =
      if s ≤ (i : ℤ) ∧ (i : ℤ) < min e (lengthMs a) then some 0
      else a[i]? := by
  rw [stepEdit_silence_eq] at h
  injection h with h
  rw [← h]
  rw [splice_getElem a _ s e hs hse (by
    rw [silentSeg, List.length_replicate])]
  split
  · next hcov =>
      rw [silentSeg, List.getElem?_replicate, if_pos]
      simp only [lengthMs] at *
      omega
  · rfl

/-- The set of entry positions muted by a plan: those covered by some
interval of the plan after end clamping. -/
def coveredBy (plan : List (ℤ × ℤ)) (n : ℤ) (i : ℕ) : Prop :=
  ∃ p ∈ plan, p.1 ≤ (i : ℤ) ∧ (i : ℤ) < min p.2 n

instance (plan : List (ℤ × ℤ)) (n : ℤ) (i : ℕ) :
    Decidable (coveredBy plan n i) :=
  List.decidableBEx _ plan

/-- Full description of a silence-mode run: it always succeeds, keeps
the duration, zeroes exactly the covered positions and keeps every
other entry. -/
theorem applyPlan_silence_char (plan : List (ℤ × ℤ)) (a : AudioSeg)
    (hplan : ∀ p ∈ plan, 0 ≤ p.1 ∧ p.1 ≤ p.2) :
    ∃ out, applyPlan .silence a plan = some out ∧
      out.length = a.length ∧
      ∀ i : ℕ, out[i]? =
        if coveredBy plan (lengthMs a) i then some 0 else a[i]? := by
  induction plan generalizing a with
  | nil =>
      refine ⟨a, rfl, rfl, fun i => ?_⟩
      rw [if_neg]
      rintro ⟨p, hp, _⟩
      exact List.not_mem_nil p hp
  | cons hit rest ih =>
      obtain ⟨s, e⟩ := hit
      have hhit := hplan (s, e) (List.mem_cons_self _ rest)
      set a1 := pySlice a 0 s ++ silentSeg (min e (lengthMs a) - s) ++
        pySliceFrom a (min e (lengthMs a)) with ha1
      have hstep : stepEdit .silence a (s, e) = some a1 :=
        stepEdit_silence_eq a s e
      have hlen1 : a1.length = a.length :=
        stepEdit_length hhit.1 hhit.2 hstep
      obtain ⟨out, hout, hlen, hchar⟩ := ih a1
        (fun p hp => hplan p (List.mem_cons_of_mem _ hp))
      refine ⟨out, ?_, by omega, fun i => ?_⟩
      · rw [applyPlan, hstep]
        exact hout
      · rw [hchar i, stepEdit_silence_getElem hhit.1 hhit.2 hstep i]
        have hn : lengthMs a1 = lengthMs a := by
          simp only [lengthMs]
          omega
        by_cases hcov : coveredBy ((s, e) :: rest) (lengthMs a) i
        · rw [if_pos hcov]
          rcases hcov with ⟨p, hp, hpi⟩
          rcases List.mem_cons.mp hp with rfl | hp
          · by_cases hcr : coveredBy rest (lengthMs a1) i
            · rw [if_pos hcr]
            · rw [if_neg hcr, if_pos hpi]
          · rw [if_pos ⟨p, hp, hn ▸ hpi⟩]
        · have hnc1 : ¬ coveredBy rest (lengthMs a1) i := by
            intro ⟨p, hp, hpi⟩
            exact hcov ⟨p, List.mem_cons_of_mem _ hp, hn ▸ hpi⟩
          have hnc2 : ¬ (s ≤ (i : ℤ) ∧ (i : ℤ) < min e (lengthMs a)) := by
            intro hin
            exact hcov ⟨(s, e), List.mem_cons_self _ rest, hin⟩
          rw [if_neg hcov, if_neg hnc1, if_neg hnc2]

/-- Claim C9: in silence mode, applying the same edit plan a second
time leaves the buffer unchanged. -/
theorem applyPlan_silence_idempotent (audio : AudioSeg)
    (plan : List (ℤ × ℤ)) (out : AudioSeg)
    (hplan : ∀ p ∈ plan, 0 ≤ p.1 ∧ p.1 ≤ p.2)
    (h1 : applyPlan .silence audio plan = some out) :
    applyPlan .silence out plan = some out := by
  obtain ⟨o1, ho1, hlen1, hchar1⟩ := applyPlan_silence_char plan audio hplan
  rw [h1] at ho1
  injection ho1 with ho1
  subst ho1
  obtain ⟨o2, ho2, hlen2, hchar2⟩ := applyPlan_silence_char plan out hplan
  have hn : lengthMs out = lengthMs audio := by
    simp only [lengthMs]
    omega
  have : o2 = out := by
    apply List.ext_getElem?
    intro i
    rw [hchar2 i, hchar1 i, hn]
    by_cases hcov : coveredBy plan (lengthMs audio) i
    · rw [if_pos hcov, if_pos hcov]
    · rw [if_neg hcov, if_neg hcov]
  rw [ho2, this]

/-- Witness for C9 on a concrete buffer and plan. -/
theorem applyPlan_silence_idempotent_witness :
    applyPlan .silence [(2 : ℚ), 2, 2, 2] [(1, 3)] = some [2, 0, 0, 2] ∧
    applyPlan .silence [(2 : ℚ), 0, 0, 2] [(1, 3)] = some [2, 0, 0, 2] := by
  have h : applyPlan .silence [(2 : ℚ), 2, 2, 2] [(1, 3)] =
      some [2, 0, 0, 2] := by decide
  exact ⟨h, applyPlan_silence_idempotent [(2 : ℚ), 2, 2, 2] [(1, 3)]
    [2, 0, 0, 2] (by decide) h⟩

end SilenceFacts

section PipelineClaims

/-- Amendment of claim C3: the code clamps each interval end to the
buffer length inside the loop, but the plan is only the descending sort
of the hits: no degenerate interval is discarded (sorting keeps every
hit), and in silence mode an interval of nonpositive clamped width
still reaches synthesis and the run continues silently with an empty
replacement instead of aborting. -/
theorem sortDesc_no_discard_and_silence_no_abort :
    (∀ hits : List (ℤ × ℤ), (sortDesc hits).Perm hits) ∧
    (∀ (audio : AudioSeg) (plan : List (ℤ × ℤ)),
      (applyPlan .silence audio plan).isSome = true) := by
  constructor
  · intro hits
    exact List.mergeSort_perm hits _
  · intro audio plan
    induction plan generalizing audio with
    | nil => rfl
    | cons hit rest ih =>
        obtain ⟨s, e⟩ := hit
        rw [applyPlan, stepEdit_silence_eq]
        exact ih _

/-- Witness for the amended C3 on concrete data. -/
theorem sortDesc_no_discard_and_silence_no_abort_witness :
    (sortDesc [(7, 9)]).Perm [(7, 9)] ∧
    (applyPlan .silence [(1 : ℚ), 1, 1, 1, 1] [(7, 9)]).isSome = true :=
  ⟨sortDesc_no_discard_and_silence_no_abort.1 [(7, 9)],
   sortDesc_no_discard_and_silence_no_abort.2 [(1 : ℚ), 1, 1, 1, 1]
     [(7, 9)]⟩

/-- Counterexample to claim C3 as stated: on a five-millisecond buffer,
the hit `(7, 9)` clamps to width `-2`; that nonpositive duration is
handed to the synthesizer (claim: it never is) and the silence-mode run
returns normally (claim: it aborts), leaving the buffer unchanged. -/
theorem nonpositive_duration_reaches_synthesis :
    synthDurations .silence [(1 : ℚ), 1, 1, 1, 1] [(7, 9)] = [-2] ∧
    applyPlan .silence [(1 : ℚ), 1, 1, 1, 1] [(7, 9)] =
      some [(1 : ℚ), 1, 1, 1, 1] := by
  decide

/-- Claim C8: an empty banned set, or a transcript with no banned-word
occurrence, ends the run in the successful no-op outcomes (exit status
zero, no edit, no output file), not in an error. -/
theorem run_noop_conditions (banned : List String)
    (segments : List (List WordInfo)) (audio : AudioSeg) (mode : Mode) :
    (banned = [] →
      runBleeper banned segments audio mode = RunResult.emptyWordlist) ∧
    (banned ≠ [] → hitsOf segments banned = [] →
      runBleeper banned segments audio mode = RunResult.noMatches) := by
  constructor
  · intro h
    rw [runBleeper, if_pos h]
  · intro h hh
    rw [runBleeper, if_neg h]
    simp only [hh, if_pos]

/-- Witness for C8 on concrete inputs. -/
theorem run_noop_conditions_witness :
    runBleeper [] [] [] .silence = RunResult.emptyWordlist ∧
    runBleeper [("x")] [] [] .silence = RunResult.noMatches :=
  ⟨(run_noop_conditions [] [] [] .silence).1 rfl,
   (run_noop_conditions [("x")] [] [] .silence).2 (by decide) rfl⟩

end PipelineClaims

section BleepFacts

/-- Entries of a faded-in clip stay strictly positive. -/
theorem fade_in_getElem_pos (k : ℤ) (seg : AudioSeg)
    (hall : ∀ (j : ℕ) (hj : j < seg.length), 0 < seg[j])
    (i : ℕ) (hi : i < (fade_in k seg).length) :
    0 < (fade_in k seg)[i] := by
  have hil : i < seg.length := by
    rw [length_fade_in] at hi
    exact hi
  simp only [fade_in, List.getElem_zipWith, List.getElem_range]
  split
  · next hcond =>
      apply mul_pos (hall _ hil)
      apply div_pos (by positivity)
      have h1 : (1 : ℤ) ≤ k := by omega
      have h2 : (1 : ℚ) ≤ (k : ℚ) := by exact_mod_cast h1
      linarith
  · exact hall _ hil

/-- Entries of a faded-out clip stay strictly positive. -/
theorem fade_out_getElem_pos (k : ℤ) (seg : AudioSeg)
    (hall : ∀ (j : ℕ) (hj : j < seg.length), 0 < seg[j])
    (i : ℕ) (hi : i < (fade_out k seg).length) :
    0 < (fade_out k seg)[i] := by
  have hil : i < seg.length := by
    rw [length_fade_out] at hi
    exact hi
  simp only [fade_out, List.getElem_zipWith, List.getElem_range]
  split
  · next hcond =>
      apply mul_pos (hall _ hil)
      apply div_pos
      · have h2 : (i : ℚ) < (seg.length : ℚ) := by exact_mod_cast hil
        linarith
      · have h1 : (i : ℤ) < (seg.length : ℤ) := by exact_mod_cast hil
        have h3 : (1 : ℤ) ≤ k := by omega
        have h4 : (1 : ℚ) ≤ (k : ℚ) := by exact_mod_cast h3
        linarith
  · exact hall _ hil

/-- Every millisecond of a generated tone has strictly positive power:
the natural tone level is positive and the fade ramps only attenuate by
strictly positive factors. -/
theorem make_bleep_all_pos {d : ℤ} {tone : AudioSeg}
    (h : make_bleep d = some tone) :
    ∀ (i : ℕ) (hi : i < tone.length), 0 < tone[i] := by
  rw [make_bleep] at h
  split at h
  · cases h
  · simp only [Option.some.injEq] at h
    subst h
    intro i hi
    apply fade_out_getElem_pos
    intro j hj
    apply fade_in_getElem_pos
    intro m hm
    rw [List.getElem_replicate]
    norm_num

/-- A tone of positive duration has strictly positive mean power, hence
a finite dBFS value in the source. -/
theorem make_bleep_power_pos {d : ℤ} {tone : AudioSeg} (hd : 0 < d)
    (h : make_bleep d = some tone) : 0 < powerOf tone := by
  have hlen := (make_bleep_length h).2
  have hne : tone ≠ [] := by
    intro hnil
    rw [hnil] at hlen
    simp at hlen
    omega
  have hsum : 0 < tone.sum := by
    apply List.sum_pos
    · intro x hx
      obtain ⟨n, hn, rfl⟩ := List.mem_iff_getElem.mp hx
      exact make_bleep_all_pos h n hn
    · exact hne
  have hlenpos : (0 : ℚ) < tone.length := by
    have : tone.length ≠ 0 := fun h0 => hne (List.eq_nil_of_length_eq_zero h0)
    exact_mod_cast Nat.pos_of_ne_zero this
  exact div_pos hsum hlenpos

/-- Applying a gain ratio multiplies the mean power by that ratio. -/
theorem powerOf_apply_gain (seg : AudioSeg) (r : ℚ) :
    powerOf (apply_gain seg r) = powerOf seg * r := by
  unfold powerOf apply_gain
  rw [List.length_map]
  have : (seg.map fun b => b * r).sum = (seg.map id).sum * r :=
    List.sum_map_mul_right seg id r
  rw [List.map_id] at this
  rw [this, mul_div_right_comm]

/-- Claim C5: in bleep mode, when the replaced source region has
nonzero mean power (finite dBFS), the built replacement is the tone
with gain set to the ratio of the reference to its natural loudness, so
its resulting loudness equals the reference exactly; when the region
has zero mean power (silent, `-infinity` dBFS), the tone is used at its
natural level with no gain applied. -/
theorem tone_gain_matches_reference (audio : AudioSeg) (s e d : ℤ)
    (hd : 0 < d) (repl : AudioSeg)
    (hrepl : replacementFor .bleep audio s e d = some repl) :
    (powerOf (pySlice audio s e) ≠ 0 →
      powerOf repl = powerOf (pySlice audio s e) ∧
      ∃ tone, make_bleep d = some tone ∧
        repl = apply_gain tone
          (powerOf (pySlice audio s e) / powerOf tone)) ∧
    (powerOf (pySlice audio s e) = 0 → make_bleep d = some repl) := by
  simp only [replacementFor, Option.map_eq_some'] at hrepl
  obtain ⟨tone, htone, hrepl⟩ := hrepl
  have hpos := make_bleep_power_pos hd htone
  constructor
  · intro hvol
    rw [← hrepl, if_pos hvol]
    refine ⟨?_, tone, htone, rfl⟩
    rw [powerOf_apply_gain, mul_comm,
      div_mul_cancel₀ _ (ne_of_gt hpos)]
  · intro hvol
    rw [← hrepl, if_neg fun hc => hc hvol]
    exact htone

/-- Witness for C5 on a concrete region and tone. -/
theorem tone_gain_matches_reference_witness :
    replacementFor .bleep [(9 : ℚ), 9] 0 2 2 = some [9, 9] ∧
    powerOf [(9 : ℚ), 9] = powerOf (pySlice [(9 : ℚ), 9] 0 2) := by
  have hrepl : replacementFor .bleep [(9 : ℚ), 9] 0 2 2 = some [9, 9] := by
    rw [show replacementFor .bleep [(9 : ℚ), 9] 0 2 2 =
      (make_bleep 2).map fun tone =>
        if powerOf (pySlice [(9 : ℚ), 9] 0 2) ≠ 0 then
          apply_gain tone
            (powerOf (pySlice [(9 : ℚ), 9] 0 2) / powerOf tone)
        else tone from rfl]
    rw [show make_bleep 2 = some [1 / 2, 1 / 2] from rfl, Option.map_some']
    rw [if_pos (by
      norm_num [powerOf, show pySlice [(9 : ℚ), 9] 0 2 = [9, 9] from rfl])]
    norm_num [apply_gain, powerOf,
      show pySlice [(9 : ℚ), 9] 0 2 = [9, 9] from rfl]
  refine ⟨hrepl, ?_⟩
  exact ((tone_gain_matches_reference [(9 : ℚ), 9] 0 2 2 (by decide)
    [9, 9] hrepl).1 (by
      norm_num [powerOf,
        show pySlice [(9 : ℚ), 9] 0 2 = [9, 9] from rfl])).1

end BleepFacts

section ReferenceLoudnessFacts

/-- A successful edit step leaves every entry strictly before the
interval start untouched. -/
theorem stepEdit_getElem_lt {mode : Mode} {a out : AudioSeg} {s e : ℤ}
    (hs : 0 ≤ s) (hse : s ≤ e)
    (h : stepEdit mode a (s, e) = some out) (i : ℕ)
    (hi : (i : ℤ) < s) : out[i]? = a[i]? := by
  simp only [stepEdit, Option.map_eq_some'] at h
  obtain ⟨repl, hrepl, h⟩ := h
  rw [← h,
    splice_getElem a repl s e hs hse (replacementFor_length hrepl),
    if_neg]
  intro hcov
  omega

/-- A bleep-mode edit step succeeds whenever the clamped interval has
nonnegative width. -/
theorem stepEdit_bleep_isSome (a : AudioSeg) (s e : ℤ)
    (hd : s ≤ min e (lengthMs a)) :
    (stepEdit .bleep a (s, e)).isSome = true := by
  simp only [stepEdit, replacementFor, make_bleep, Option.isSome_map]
  rw [if_neg (by omega)]
  rfl

/-- Two buffers of equal length that agree on all entries before `v`
have the same `[u:v]` slice. -/
theorem pySlice_congr {a b : AudioSeg} (hlen : a.length = b.length)
    (u v : ℤ) (hv : 0 ≤ v)
    (hagree : ∀ i : ℕ, (i : ℤ) < v → a[i]? = b[i]?) :
    pySlice a u v = pySlice b u v := by
  apply List.ext_getElem?
  intro j
  unfold pySlice
  rw [List.getElem?_drop, List.getElem?_drop, hlen]
  by_cases hj : pyIdx b.length u + j < pyIdx b.length v
  · rw [List.getElem?_take_of_lt hj, List.getElem?_take_of_lt hj]
    apply hagree
    have h1 : pyIdx b.length v ≤ v.toNat := by
      rw [pyIdx, if_neg (by omega)]
      omega
    omega
  · rw [List.getElem?_eq_none (by
      rw [List.length_take]
      omega),
      List.getElem?_eq_none (by
      rw [List.length_take]
      omega)]

/-- Consing a successful bleep step onto a measurement run. -/
theorem refsUsed_cons_some {a a1 : AudioSeg} {q : ℤ × ℤ}
    {qs : List (ℤ × ℤ)} (h : stepEdit .bleep a q = some a1) :
    refsUsed a (q :: qs) =
      powerOf (pySlice a q.1 (min q.2 (lengthMs a))) :: refsUsed a1 qs := by
  rw [refsUsed, h]

/-- Generalized induction for the measured references: while the
working buffer agrees with the original below `C` and every remaining
interval lies below `C`, the measured references are the original
region loudnesses. -/
theorem refsUsed_eq_aux (qs : List (ℤ × ℤ)) :
    ∀ (a a0 : AudioSeg) (C : ℤ),
    a.length = a0.length →
    (∀ i : ℕ, (i : ℤ) < C → a[i]? = a0[i]?) →
    (∀ q ∈ qs, min q.2 (lengthMs a0) ≤ C) →
    (∀ q ∈ qs, 0 ≤ q.1 ∧ q.1 ≤ q.2 ∧ q.1 ≤ lengthMs a0) →
    List.Pairwise (fun p q => min q.2 (lengthMs a0) ≤ p.1) qs →
    refsUsed a qs =
      qs.map fun q => powerOf (pySlice a0 q.1 (min q.2 (lengthMs a0))) := by
  induction qs with
  | nil =>
      intro a a0 C _ _ _ _ _
      rfl
  | cons q qs ih =>
      intro a a0 C hlen hagree hC hall hpair
      obtain ⟨s, e⟩ := q
      have hq := hall (s, e) (List.mem_cons_self _ qs)
      have hlenM : lengthMs a = lengthMs a0 := by
        simp only [lengthMs, hlen]
      have hd : s ≤ min e (lengthMs a) := by
        rw [hlenM]
        exact le_min hq.2.1 hq.2.2
      have hsome := stepEdit_bleep_isSome a s e hd
      cases hstep : stepEdit .bleep a (s, e) with
      | none => rw [hstep] at hsome; cases hsome
      | some a1 =>
          rw [refsUsed_cons_some hstep, List.map_cons]
          have hCq := hC (s, e) (List.mem_cons_self _ qs)
          have hsC : s ≤ C := le_trans (le_min hq.2.1 hq.2.2) hCq
          congr 1
          · rw [hlenM]
            apply congrArg
            apply pySlice_congr hlen _ _ (le_trans hq.1 (le_min hq.2.1 hq.2.2))
            intro i hi
            exact hagree i (lt_of_lt_of_le hi hCq)
          · apply ih a1 a0 s
            · rw [stepEdit_length hq.1 hq.2.1 hstep, hlen]
            · intro i hi
              rw [stepEdit_getElem_lt hq.1 hq.2.1 hstep i hi]
              exact hagree i (by omega)
            · intro p hp
              exact (List.pairwise_cons.mp hpair).1 p hp
            · intro p hp
              exact hall p (List.mem_cons_of_mem _ hp)
            · exact (List.pairwise_cons.mp hpair).2

/-- Amendment of claim C4: the loudness reference for each interval is
measured on the working buffer at the time the interval is processed;
for a descending plan whose clamped intervals are pairwise disjoint
this equals the loudness of the original source buffer over the
interval, but overlapping intervals may measure regions already
containing spliced replacements. -/
theorem reference_loudness_original_when_disjoint (audio : AudioSeg)
    (plan : List (ℤ × ℤ))
    (hplan : ∀ p ∈ plan, 0 ≤ p.1 ∧ p.1 ≤ p.2 ∧ p.1 ≤ lengthMs audio)
    (hdisj : List.Pairwise
      (fun p q => min q.2 (lengthMs audio) ≤ p.1) plan) :
    refsUsed audio plan =
      plan.map fun p =>
        powerOf (pySlice audio p.1 (min p.2 (lengthMs audio))) :=
  refsUsed_eq_aux plan audio audio (lengthMs audio) rfl
    (fun _ _ => rfl) (fun _ _ => min_le_right _ _) hplan hdisj

/-- Witness for the amended C4 on a disjoint concrete plan. -/
theorem reference_loudness_original_when_disjoint_witness :
    refsUsed [(9 : ℚ), 9, 0, 0] [(2, 4), (0, 1)] =
      List.map (fun p =>
        powerOf (pySlice [(9 : ℚ), 9, 0, 0] p.1
          (min p.2 (lengthMs [(9 : ℚ), 9, 0, 0])))) [(2, 4), (0, 1)] :=
  reference_loudness_original_when_disjoint [(9 : ℚ), 9, 0, 0]
    [(2, 4), (0, 1)] (by decide) (by decide)

/-- Counterexample to claim C4 as stated: with source `[9, 9, 0, 0]`
and the overlapping descending plan `[(2, 4), (1, 3)]`, the first edit
splices the natural-level tone over the silent region `[2, 4)`; the
reference then measured for `(1, 3)` is `19/4`, while the original
source loudness over `[1, 3)` is `9/2`. -/
theorem overlap_reference_loudness_differs :
    refsUsed [(9 : ℚ), 9, 0, 0] [(2, 4), (1, 3)] = [0, 19 / 4] ∧
    powerOf (pySlice [(9 : ℚ), 9, 0, 0] 1 3) = 9 / 2 ∧
    ((19 : ℚ) / 4) ≠ 9 / 2 := by
  refine ⟨?_, ?_, by norm_num⟩
  · have hv0 : powerOf (pySlice [(9 : ℚ), 9, 0, 0] 2 4) = 0 := by
      norm_num [powerOf, show pySlice [(9 : ℚ), 9, 0, 0] 2 4 = [0, 0]
        from rfl]
    have hr : replacementFor .bleep [(9 : ℚ), 9, 0, 0] 2 4 2 =
        some [1 / 2, 1 / 2] := by
      rw [show replacementFor .bleep [(9 : ℚ), 9, 0, 0] 2 4 2 =
        (make_bleep 2).map (fun tone =>
          if powerOf (pySlice [(9 : ℚ), 9, 0, 0] 2 4) ≠ 0 then
            apply_gain tone
              (powerOf (pySlice [(9 : ℚ), 9, 0, 0] 2 4) / powerOf tone)
          else tone) from rfl]
      rw [show make_bleep 2 = some [1 / 2, 1 / 2] from rfl,
        Option.map_some', if_neg fun hc => hc hv0]
    have h1 : stepEdit .bleep [(9 : ℚ), 9, 0, 0] (2, 4) =
        some [9, 9, 1 / 2, 1 / 2] := by
      rw [show stepEdit .bleep [(9 : ℚ), 9, 0, 0] (2, 4) =
        (replacementFor .bleep [(9 : ℚ), 9, 0, 0] 2 4 2).map
          (fun repl => pySlice [(9 : ℚ), 9, 0, 0] 0 2 ++ repl ++
            pySliceFrom [(9 : ℚ), 9, 0, 0] 4) from rfl,
        hr, Option.map_some']
      rfl
    have hsome := stepEdit_bleep_isSome [(9 : ℚ), 9, 1 / 2, 1 / 2] 1 3
      (by decide)
    cases hstep : stepEdit .bleep [(9 : ℚ), 9, 1 / 2, 1 / 2] (1, 3) with
    | none => rw [hstep] at hsome; cases hsome
    | some a2 =>
        rw [refsUsed_cons_some h1, refsUsed_cons_some hstep, refsUsed]
        have e1 : powerOf (pySlice [(9 : ℚ), 9, 0, 0] 2
            (min 4 (lengthMs [(9 : ℚ), 9, 0, 0]))) = 0 := by
          norm_num [powerOf, show pySlice [(9 : ℚ), 9, 0, 0] 2
            (min 4 (lengthMs [(9 : ℚ), 9, 0, 0])) = [0, 0] from rfl]
        have e2 : powerOf (pySlice [(9 : ℚ), 9, 1 / 2, 1 / 2] 1
            (min 3 (lengthMs [(9 : ℚ), 9, 1 / 2, 1 / 2]))) = 19 / 4 := by
          norm_num [powerOf, show pySlice [(9 : ℚ), 9, 1 / 2, 1 / 2] 1
            (min 3 (lengthMs [(9 : ℚ), 9, 1 / 2, 1 / 2])) = [9, 1 / 2]
            from rfl]
        rw [e1, e2]
  · norm_num [powerOf,
      show pySlice [(9 : ℚ), 9, 0, 0] 1 3 = [9, 0] from rfl]

end ReferenceLoudnessFacts
